import Mathlib

/-!
# Verification of the `distinct_permutations` library

This file embeds the Rust library `distinct_permutations` (single source file
`src/lib.rs`) into Lean and proves the properties stated in its design
specification.

The library exposes one public function, `distinct_permutations`, which returns
all permutations of the input vector that are distinct with respect to equality
on the element type `T`, in lexicographically sorted order.  Internally it uses
a small counter abstraction `Counts<T>` (a `HashMap<T, usize>` whose stored
counts are all positive) and a recursive backtracking search
`distinct_permutations_with` that mutates a shared prefix (`head`) and the
counter in place, restoring both before returning from each frame.

Embedding choices:

* A `HashMap<T, usize>` whose values are all strictly positive is exactly a
  finite multiset (the count of `k` is its multiplicity), so the state of
  `Counts<T>` is modelled as a `Multiset T` (`lib.rs:5-10`).
* `Counts::keys` (`lib.rs:24-26`) returns the distinct keys in the unspecified
  iteration order of the hash map; its only caller immediately sorts them
  (`lib.rs:56-57`).  The composition is modelled by `sortedKeys`, the sorted
  list of distinct elements.  The claim that the result does not depend on the
  hash iteration order is proved separately (`searchOrd` below quantifies over
  an arbitrary enumeration order of the keys).
* The mutating recursion `distinct_permutations_with` (`lib.rs:51-70`) is
  modelled by a fuel-indexed state-threading function of the same name: it
  returns the accumulated result together with the final `head` and counter
  state, making the push/pop and remove/add discipline visible.  A fuel of
  `Multiset.card` of the counter always suffices.  A purified well-founded
  recursion `search` is also defined and proved equal to it
  (`distinct_permutations_with_eq`).
* The `assert!(*v > 0)` in `Counts::from` (`lib.rs:17-22`) is a panic; the
  constructor is modelled as returning `Option`, with `none` for the panic.
-/

namespace DistinctPerms

variable {T : Type} [LinearOrder T] [DecidableEq T]

/-- The state of the Rust struct `Counts<T>` (`lib.rs:5-10`): a
`HashMap<T, usize>` all of whose stored counts are positive, i.e. a finite
multiset of values of `T`.  The multiplicity of `k` in `counts` is the value
stored under the key `k` (keys with count zero are absent). -/
structure Counts (T : Type) where
  counts : Multiset T
deriving DecidableEq

/-- The sorted list of distinct elements of a multiset.  This models
`Counts::keys` (`lib.rs:24-26`) composed with the `keys.sort()` performed by
its only caller (`lib.rs:56-57`): the hash map yields each distinct key exactly
once in unspecified order, and sorting that list gives the sorted duplicate-free
list of elements.  (Defined via `insertionSort` so that it reduces inside the
kernel.) -/
def sortedKeys (m : Multiset T) : List T :=
  Quotient.liftOn m (fun l => l.dedup.insertionSort (· ≤ ·)) (fun l₁ l₂ h =>
    List.eq_of_perm_of_sorted
      (((List.perm_insertionSort _ _).trans h.dedup).trans
        (List.perm_insertionSort _ _).symm)
      (List.sorted_insertionSort _ _) (List.sorted_insertionSort _ _))

/-- Model of `Counts::keys` (`lib.rs:24-26`) followed by the caller's sort
(`lib.rs:57`). -/
def Counts.keys (c : Counts T) : List T := sortedKeys c.counts

/-- Model of `Counts::add` (`lib.rs:28-31`): increment the count of `k`, inserting it
with count 1 if absent. -/
def Counts.add (c : Counts T) (k : T) : Counts T := ⟨k ::ₘ c.counts⟩

/-- Model of `Counts::remove` (`lib.rs:33-42`): decrement the count of `k`, deleting the
entry when it reaches zero.  (For `k` absent the Rust code underflows the
`usize` count, a contract violation that the search never exercises; the
multiset `erase` leaves the state unchanged in that case.) -/
def Counts.remove (c : Counts T) (k : T) : Counts T := ⟨c.counts.erase k⟩

/-- Model of `Counts::is_empty` (`lib.rs:44-46`). -/
def Counts.is_empty (c : Counts T) : Bool := decide (c.counts = 0)

/-- The multiset described by a list of `(value, count)` pairs, as stored in a
`HashMap<T, usize>` (each value replicated `count` times). -/
def mapMultiset (m : List (T × Nat)) : Multiset T :=
  (m.map fun p => Multiset.replicate p.2 p.1).sum

/-- Model of `Counts::from` (`lib.rs:17-22`): it asserts that every stored count is
positive (`assert!(*v > 0)`, a panic-equivalent abort modelled by `none`) and
otherwise wraps the map unchanged.  The input hash map is modelled as a list of
`(value, count)` pairs with pairwise distinct keys. -/
def Counts.fromMap (m : List (T × Nat)) : Option (Counts T) :=
  if m.all fun p => 0 < p.2 then some ⟨mapMultiset m⟩ else none

/-- Model of `Counts::from(input.into_iter().counts())` (`lib.rs:95`): the frequency map
of the input list is a map from each distinct value to its (positive) number of
occurrences, i.e. exactly the multiset of the input's elements; the `assert` in
`Counts::from` always passes on it. -/
def Counts.ofList (input : List T) : Counts T := ⟨(input : Multiset T)⟩

/-- The body of the `for value in keys` loop of `distinct_permutations_with`
(`lib.rs:58-68`), iterated over the remaining `keys`, threading the mutable
state (`head`, `counts`) and accumulating results.  The recursive call of the
Rust function is abstracted as the function argument `rec` (instantiated with
the next lower fuel level below):

* push `value` onto `head`, remove one occurrence from `counts` (`lib.rs:59-60`);
* if the counter is now empty record a copy of `head`, otherwise recurse and
  append all returned permutations (`lib.rs:61-65`);
* pop `head` and add `value` back (`lib.rs:66-67`). -/
def distinct_permutations_loop
    (rec : List T → Counts T → List (List T) × List T × Counts T) :
    List T → List T → Counts T → List (List T) × List T × Counts T
  | [], head, counts => ([], head, counts)
  | value :: keys, head, counts =>
    let head1 := head ++ [value]
    let counts1 := counts.remove value
    let step :=
      if counts1.is_empty then ([head1], head1, counts1) else rec head1 counts1
    let head2 := step.2.1.dropLast
    let counts2 := step.2.2.add value
    let rest := distinct_permutations_loop rec keys head2 counts2
    (step.1 ++ rest.1, rest.2.1, rest.2.2)

/-- Model of `distinct_permutations_with` (`lib.rs:51-70`), the mutating recursive
search, embedded with explicit state threading: the result is the returned
vector of permutations together with the final state of the two `&mut`
parameters.  The `Nat` argument is recursion fuel (the Rust recursion
terminates because every recursive call strictly shrinks the counter; fuel
`counts.counts.card` suffices, see `distinct_permutations_with_eq`). -/
def distinct_permutations_with :
    Nat → List T → Counts T → List (List T) × List T × Counts T
  | 0, head, counts => ([], head, counts)
  | fuel + 1, head, counts =>
    distinct_permutations_loop (distinct_permutations_with fuel)
      counts.keys head counts

/-- Model of `distinct_permutations` (`lib.rs:90-98`): build the counter from the
input's frequencies, start with an empty prefix, and run the search. -/
def distinct_permutations (input : List T) : List (List T) :=
  let total_len := input.length
  let counts := Counts.ofList input
  (distinct_permutations_with total_len [] counts).1

/-- Purified form of `distinct_permutations_with` (`lib.rs:51-70`), with the
state mutation eliminated: since each loop iteration restores `head` and `counts` before the
next one starts (proved below, `distinct_permutations_loop_spec`), every
iteration sees the entry state, and the accumulated result is a `flatMap` over
the sorted key list.  Defined by well-founded recursion on the size of the
counter (each recursive call removes one occurrence), and proved equal to the
state-threading embedding in `distinct_permutations_with_eq`. -/
def search (head : List T) (c : Counts T) : List (List T) :=
  c.keys.attach.flatMap fun v =>
    if (c.remove v.1).is_empty then [head ++ [v.1]]
    else search (head ++ [v.1]) (c.remove v.1)
termination_by Multiset.card c.counts
decreasing_by
  simp only [Counts.remove]
  refine Multiset.card_erase_lt_of_mem ?_
  have h := v.2
  revert h
  obtain ⟨m⟩ := c
  induction m using Quotient.inductionOn with
  | h l =>
    intro h
    have h' : v.1 ∈ l.dedup.insertionSort (· ≤ ·) := h
    exact Multiset.mem_coe.mpr (List.mem_dedup.mp ((List.mem_insertionSort _).mp h'))

/-- Variant of `search` where the `counter.keys()` call (`lib.rs:56`) is replaced by an
arbitrary key-enumeration oracle `keysOf`, modelling the unspecified iteration
order of the `HashMap`; the oracle's output is then sorted, exactly as the
source sorts `keys` (`lib.rs:57`). -/
def searchOrd (keysOf : Counts T → List T) :
    Nat → List T → Counts T → List (List T)
  | 0, _, _ => []
  | fuel + 1, head, c =>
    ((keysOf c).insertionSort (· ≤ ·)).flatMap fun value =>
      if (c.remove value).is_empty then [head ++ [value]]
      else searchOrd keysOf fuel (head ++ [value]) (c.remove value)

/-- Variant of `distinct_permutations` run with the key-enumeration oracle `keysOf` in
place of the hash map's key iteration. -/
def distinct_permutationsOrd (keysOf : Counts T → List T) (input : List T) :
    List (List T) :=
  searchOrd keysOf input.length [] (Counts.ofList input)

/-- The spec-side reference for the all-distinct case (spec §8, Uniqueness
case): generate all `n!` permutations of the input with a brute-force
generator, then sort them lexicographically. -/
def bruteForceSorted (l : List T) : List (List T) :=
  l.permutations'.insertionSort (· ≤ ·)

/-! Section: Basic properties of the key list -/

theorem Counts.ext {c₁ c₂ : Counts T} (h : c₁.counts = c₂.counts) : c₁ = c₂ := by
  cases c₁; cases c₂; cases h; rfl

theorem sortedKeys_coe (l : List T) :
    sortedKeys (l : Multiset T) = l.dedup.insertionSort (· ≤ ·) := rfl

theorem sortedKeys_zero : sortedKeys (0 : Multiset T) = [] := rfl

theorem mem_sortedKeys {m : Multiset T} {a : T} : a ∈ sortedKeys m ↔ a ∈ m := by
  induction m using Quotient.inductionOn with
  | h l => simp [sortedKeys_coe, List.mem_insertionSort]

theorem sortedKeys_sorted (m : Multiset T) : (sortedKeys m).Sorted (· ≤ ·) := by
  induction m using Quotient.inductionOn with
  | h l => exact List.sorted_insertionSort _ _

theorem sortedKeys_nodup (m : Multiset T) : (sortedKeys m).Nodup := by
  induction m using Quotient.inductionOn with
  | h l => exact ((List.perm_insertionSort _ _).nodup_iff).mpr l.nodup_dedup

theorem sortedKeys_sorted_lt (m : Multiset T) : (sortedKeys m).Sorted (· < ·) :=
  (sortedKeys_sorted m).lt_of_le (sortedKeys_nodup m)

theorem sortedKeys_coe_eq_dedup (m : Multiset T) :
    (sortedKeys m : Multiset T) = m.dedup := by
  induction m using Quotient.inductionOn with
  | h l =>
    show ((l.dedup.insertionSort (· ≤ ·) : List T) : Multiset T) =
      Multiset.dedup (l : Multiset T)
    rw [Multiset.coe_dedup]
    exact Quot.sound (List.perm_insertionSort _ _)

theorem Counts.mem_keys {c : Counts T} {a : T} : a ∈ c.keys ↔ a ∈ c.counts :=
  mem_sortedKeys

theorem Counts.is_empty_iff {c : Counts T} : c.is_empty = true ↔ c.counts = 0 := by
  simp [Counts.is_empty]

/-! Section: Unfolding the purified search -/

theorem search_eq (head : List T) (c : Counts T) :
    search head c = c.keys.flatMap fun v =>
      if (c.remove v).is_empty then [head ++ [v]]
      else search (head ++ [v]) (c.remove v) := by
  rw [search]
  conv_rhs => rw [← List.attach_map_subtype_val c.keys]
  rw [List.flatMap_map]

/-! Section: The state-threading search restores its state and computes `search` -/

theorem distinct_permutations_loop_spec
    (rec : List T → Counts T → List (List T) × List T × Counts T)
    (keys : List T) (head : List T) (c : Counts T)
    (hk : ∀ v ∈ keys, v ∈ c.counts)
    (hrec : ∀ h' c', Multiset.card c'.counts < Multiset.card c.counts →
      rec h' c' = (search h' c', h', c')) :
    distinct_permutations_loop rec keys head c =
      ((keys.flatMap fun v =>
        if (c.remove v).is_empty then [head ++ [v]]
        else search (head ++ [v]) (c.remove v)), head, c) := by
  induction keys generalizing head with
  | nil => simp [distinct_permutations_loop]
  | cons value keys ih =>
    have hv : value ∈ c.counts := hk value (List.mem_cons_self _ _)
    have hcard : Multiset.card (c.remove value).counts < Multiset.card c.counts :=
      Multiset.card_erase_lt_of_mem hv
    have hrestore : (c.remove value).add value = c :=
      Counts.ext (Multiset.cons_erase hv)
    have hkeys : ∀ v ∈ keys, v ∈ c.counts :=
      fun v hv' => hk v (List.mem_cons_of_mem _ hv')
    simp only [distinct_permutations_loop]
    cases he : (c.remove value).is_empty with
    | true => simp [he, hrestore, ih head hkeys]
    | false => simp [he, hrestore, hrec _ _ hcard, ih head hkeys]

theorem distinct_permutations_with_eq (fuel : Nat) :
    ∀ (head : List T) (c : Counts T), Multiset.card c.counts ≤ fuel →
      distinct_permutations_with fuel head c = (search head c, head, c) := by
  induction fuel with
  | zero =>
    intro head c hc
    have h0 : c.counts = 0 := Multiset.card_eq_zero.mp (Nat.le_zero.mp hc)
    have hk : c.keys = [] := by simp [Counts.keys, h0, sortedKeys_zero]
    rw [distinct_permutations_with, search_eq, hk]
    rfl
  | succ fuel ih =>
    intro head c hc
    rw [distinct_permutations_with,
      distinct_permutations_loop_spec _ _ _ _ (fun v hv => Counts.mem_keys.mp hv)
        (fun h' c' hlt => ih h' c' (Nat.lt_succ_iff.mp (lt_of_lt_of_le hlt hc))),
      ← search_eq]

theorem distinct_permutations_eq (input : List T) :
    distinct_permutations input = search [] (Counts.ofList input) := by
  have hc : Multiset.card (Counts.ofList input).counts ≤ input.length := by
    simp [Counts.ofList]
  simp [distinct_permutations, distinct_permutations_with_eq input.length [] _ hc]

/-! Section: Membership: `search head c` holds exactly the extensions of `head` by an
arrangement of the counter's multiset -/

theorem mem_search (c : Counts T) (head p : List T) :
    p ∈ search head c ↔
      ∃ q, q ≠ [] ∧ (q : Multiset T) = c.counts ∧ p = head ++ q := by
  rw [search_eq, List.mem_flatMap]
  constructor
  · rintro ⟨v, hvk, hp⟩
    have hvc : v ∈ c.counts := Counts.mem_keys.mp hvk
    by_cases he : (c.remove v).is_empty = true
    · rw [if_pos he] at hp
      have hp' : p = head ++ [v] := by simpa using hp
      refine ⟨[v], by simp, ?_, hp'⟩
      have h0 : c.counts.erase v = 0 := Counts.is_empty_iff.mp he
      calc ([v] : Multiset T) = v ::ₘ c.counts.erase v := by rw [h0]; rfl
        _ = c.counts := Multiset.cons_erase hvc
    · rw [if_neg he] at hp
      obtain ⟨q, hq0, hqm, rfl⟩ := (mem_search (c.remove v) (head ++ [v]) p).mp hp
      refine ⟨v :: q, by simp, ?_, by simp⟩
      rw [← Multiset.cons_coe, hqm]
      exact Multiset.cons_erase hvc
  · rintro ⟨q, hq0, hqm, rfl⟩
    obtain ⟨a, q', rfl⟩ := List.exists_cons_of_ne_nil hq0
    have hac : a ∈ c.counts := by rw [← hqm]; simp
    have herase : (c.remove a).counts = (q' : Multiset T) := by
      show c.counts.erase a = _
      rw [← hqm, ← Multiset.cons_coe, Multiset.erase_cons_head]
    refine ⟨a, Counts.mem_keys.mpr hac, ?_⟩
    by_cases he : (c.remove a).is_empty = true
    · rw [if_pos he]
      have h0 : (q' : Multiset T) = 0 := by
        rw [← herase]; exact Counts.is_empty_iff.mp he
      have hq'nil : q' = [] := (Multiset.coe_eq_zero q').mp h0
      subst hq'nil
      simp
    · rw [if_neg he]
      have hq' : q' ≠ [] := by
        intro h; subst h
        exact he (Counts.is_empty_iff.mpr (by rw [herase]; rfl))
      rw [mem_search (c.remove a) (head ++ [a])]
      exact ⟨q', hq', herase.symm, by simp⟩
termination_by Multiset.card c.counts
decreasing_by
  all_goals simp only [Counts.remove]
  · exact Multiset.card_erase_lt_of_mem hvc
  · exact Multiset.card_erase_lt_of_mem hac

/-! Section: Sortedness: the output of `search` is strictly increasing in the
lexicographic order induced by the order on `T` -/

theorem lex_append_cons (h : List T) {a b : T} (hab : a < b) (t t' : List T) :
    List.Lex (· < ·) (h ++ a :: t) (h ++ b :: t') := by
  induction h with
  | nil => exact List.Lex.rel hab
  | cons x xs ih => exact List.Lex.cons ih

theorem pairwise_search (c : Counts T) (head : List T) :
    (search head c).Pairwise (List.Lex (· < ·)) := by
  rw [search_eq, List.pairwise_flatMap]
  have hshape : ∀ (v : T) (x : List T),
      x ∈ (if (c.remove v).is_empty = true then [head ++ [v]]
        else search (head ++ [v]) (c.remove v)) → ∃ t, x = head ++ v :: t := by
    intro v x hx
    by_cases he : (c.remove v).is_empty = true
    · rw [if_pos he] at hx
      exact ⟨[], by simpa using hx⟩
    · rw [if_neg he] at hx
      obtain ⟨q, _, _, rfl⟩ := (mem_search _ _ _).mp hx
      exact ⟨q, by simp⟩
  constructor
  · intro v hv
    by_cases he : (c.remove v).is_empty = true
    · rw [if_pos he]
      exact List.pairwise_singleton _ _
    · rw [if_neg he]
      exact pairwise_search (c.remove v) (head ++ [v])
  · refine (sortedKeys_sorted_lt c.counts).imp_of_mem ?_
    intro v w _ _ hvw x hx y hy
    obtain ⟨t, rfl⟩ := hshape v x hx
    obtain ⟨t', rfl⟩ := hshape w y hy
    exact lex_append_cons head hvw t t'
termination_by Multiset.card c.counts
decreasing_by
  simp only [Counts.remove]
  exact Multiset.card_erase_lt_of_mem (Counts.mem_keys.mp hv)

/-! Section: Cardinality: the multinomial count -/

theorem prod_factorial_count_erase {m : Multiset T} {v : T} (hv : v ∈ m) :
    ∏ k ∈ m.toFinset, (m.count k).factorial =
      m.count v * ∏ k ∈ (m.erase v).toFinset, ((m.erase v).count k).factorial := by
  have hsub : (m.erase v).toFinset ⊆ m.toFinset :=
    Multiset.toFinset_subset.mpr (Multiset.subset_of_le (Multiset.erase_le v m))
  have hstep : ∏ k ∈ (m.erase v).toFinset, ((m.erase v).count k).factorial =
      ∏ k ∈ m.toFinset, ((m.erase v).count k).factorial := by
    refine Finset.prod_subset hsub ?_
    intro x _ hx'
    have hx0 : (m.erase v).count x = 0 :=
      Multiset.count_eq_zero.mpr fun hmem => hx' (Multiset.mem_toFinset.mpr hmem)
    rw [hx0]
    rfl
  have hvF : v ∈ m.toFinset := Multiset.mem_toFinset.mpr hv
  rw [hstep,
    ← Finset.mul_prod_erase m.toFinset (fun k => (m.count k).factorial) hvF,
    ← Finset.mul_prod_erase m.toFinset (fun k => ((m.erase v).count k).factorial) hvF,
    ← mul_assoc]
  have hpos : 0 < m.count v := Multiset.count_pos.mpr hv
  congr 1
  · rw [Multiset.count_erase_self]
    exact (Nat.mul_factorial_pred hpos).symm
  · refine Finset.prod_congr rfl ?_
    intro x hx
    have hxv : x ≠ v := Finset.ne_of_mem_erase hx
    rw [Multiset.count_erase_of_ne hxv]

theorem keys_map_sum (c : Counts T) (g : T → ℕ) :
    (c.keys.map g).sum = ∑ k ∈ c.counts.toFinset, g k := by
  rw [Finset.sum_eq_multiset_sum, Multiset.toFinset_val,
    ← sortedKeys_coe_eq_dedup c.counts]
  show _ = (Multiset.map g ((Counts.keys c : List T) : Multiset T)).sum
  rw [Multiset.map_coe, Multiset.sum_coe]

theorem length_search (c : Counts T) (head : List T) (hne : c.counts ≠ 0) :
    (search head c).length *
        ∏ k ∈ c.counts.toFinset, (c.counts.count k).factorial =
      (Multiset.card c.counts).factorial := by
  rw [search_eq, List.length_flatMap, keys_map_sum c, Finset.sum_mul]
  have hstep : ∀ v ∈ c.counts.toFinset,
      (List.length ∘ fun v => if (c.remove v).is_empty = true then [head ++ [v]]
          else search (head ++ [v]) (c.remove v)) v *
        ∏ k ∈ c.counts.toFinset, (c.counts.count k).factorial =
      (Multiset.card c.counts - 1).factorial * c.counts.count v := by
    intro v hvF
    have hv : v ∈ c.counts := Multiset.mem_toFinset.mp hvF
    by_cases he : (c.remove v).is_empty = true
    · have h0 : c.counts.erase v = 0 := Counts.is_empty_iff.mp he
      have hm : c.counts = {v} := by
        rw [← Multiset.cons_erase hv, h0]
        rfl
      simp [he, hm, Nat.factorial]
    · have hrec := length_search (c.remove v) (head ++ [v])
        fun h => he (Counts.is_empty_iff.mpr h)
      simp only [Counts.remove] at hrec
      have hcard : Multiset.card (c.counts.erase v) = Multiset.card c.counts - 1 :=
        Multiset.card_erase_of_mem hv
      rw [hcard] at hrec
      simp only [Function.comp_apply]
      rw [if_neg he]
      simp only [Counts.remove]
      rw [prod_factorial_count_erase hv, mul_left_comm, hrec, mul_comm]
  rw [Finset.sum_congr rfl hstep, ← Finset.mul_sum,
    Multiset.toFinset_sum_count_eq]
  have hpos : 0 < Multiset.card c.counts := Multiset.card_pos.mpr hne
  rw [mul_comm]
  exact Nat.mul_factorial_pred hpos
termination_by Multiset.card c.counts
decreasing_by
  simp only [Counts.remove]
  exact Multiset.card_erase_lt_of_mem hv

/-! Section: `Counts::from` stores exactly the given mapping -/

theorem mapMultiset_count_of_not_mem {m : List (T × Nat)} {k : T}
    (hk : k ∉ m.map Prod.fst) : (mapMultiset m).count k = 0 := by
  induction m with
  | nil => rfl
  | cons q m ih =>
    have hk1 : q.1 ≠ k := fun h => hk (by simp [h])
    have hk2 : k ∉ m.map Prod.fst := fun h => hk (by simp [h])
    simp only [mapMultiset, List.map_cons, List.sum_cons, Multiset.count_add]
    rw [Multiset.count_replicate, if_neg hk1]
    simpa [mapMultiset] using ih hk2

theorem mapMultiset_count_of_mem {m : List (T × Nat)} {p : T × Nat}
    (hnd : (m.map Prod.fst).Nodup) (hp : p ∈ m) :
    (mapMultiset m).count p.1 = p.2 := by
  induction m with
  | nil => cases hp
  | cons q m ih =>
    simp only [List.map_cons, List.nodup_cons] at hnd
    simp only [mapMultiset, List.map_cons, List.sum_cons, Multiset.count_add]
    rcases List.mem_cons.mp hp with rfl | hp'
    · rw [Multiset.count_replicate, if_pos rfl]
      have h0 : (mapMultiset m).count p.1 = 0 := mapMultiset_count_of_not_mem hnd.1
      simpa [mapMultiset] using h0
    · have hne : q.1 ≠ p.1 := fun h => hnd.1 (h ▸ (List.mem_map.mpr ⟨p, hp', rfl⟩))
      rw [Multiset.count_replicate, if_neg hne]
      simpa [mapMultiset] using ih hnd.2 hp'

/-! Section: Key-enumeration-order independence -/

theorem searchOrd_eq (keysOf : Counts T → List T)
    (hk : ∀ c' : Counts T, (keysOf c').Perm c'.keys) (fuel : Nat) :
    ∀ (head : List T) (c : Counts T), Multiset.card c.counts ≤ fuel →
      searchOrd keysOf fuel head c = search head c := by
  induction fuel with
  | zero =>
    intro head c hc
    have h0 : c.counts = 0 := Multiset.card_eq_zero.mp (Nat.le_zero.mp hc)
    have hkeys : c.keys = [] := by simp [Counts.keys, h0, sortedKeys_zero]
    rw [searchOrd, search_eq, hkeys]
    rfl
  | succ fuel ih =>
    intro head c hc
    have hsort : (keysOf c).insertionSort (· ≤ ·) = c.keys :=
      List.eq_of_perm_of_sorted ((List.perm_insertionSort _ _).trans (hk c))
        (List.sorted_insertionSort _ _) (sortedKeys_sorted c.counts)
    rw [searchOrd, hsort, search_eq]
    refine List.flatMap_congr ?_
    intro v hv
    by_cases he : (c.remove v).is_empty = true
    · rw [if_pos he, if_pos he]
    · rw [if_neg he, if_neg he]
      have hvc : v ∈ c.counts := Counts.mem_keys.mp hv
      have : Multiset.card (c.remove v).counts ≤ fuel := by
        have := Multiset.card_erase_lt_of_mem hvc
        simp only [Counts.remove]
        omega
      exact ih (head ++ [v]) (c.remove v) this

/-! Section: Comparison with a brute-force generator (all-distinct inputs) -/

theorem search_nodup (c : Counts T) (head : List T) : (search head c).Nodup :=
  (pairwise_search c head).imp fun {a b} h heq =>
    absurd (heq ▸ h) (irrefl_of (List.Lex (· < ·)) b)

theorem mem_distinct_permutations (input : List T) (p : List T) :
    p ∈ distinct_permutations input ↔ p ≠ [] ∧ p.Perm input := by
  rw [distinct_permutations_eq, mem_search]
  constructor
  · rintro ⟨q, hq0, hqm, rfl⟩
    exact ⟨hq0, Multiset.coe_eq_coe.mp hqm⟩
  · rintro ⟨hp0, hp⟩
    exact ⟨p, hp0, Multiset.coe_eq_coe.mpr hp, (List.nil_append p).symm⟩

/-- C7 (amended): for every nonempty input whose elements are pairwise
distinct, the output of `distinct_permutations` equals the list of all `n!`
permutations of the input produced by a brute-force generator and then sorted.
(The restriction to nonempty inputs is forced: for the empty input the
brute-force generator yields the single empty permutation while the output is
empty; see the counterexample.) -/
theorem distinct_permutations_eq_bruteForceSorted (l : List T)
    (hnd : l.Nodup) (hne : l ≠ []) :
    distinct_permutations l = bruteForceSorted l := by
  have hmemR : ∀ p, p ∈ bruteForceSorted l ↔ p.Perm l := by
    intro p
    rw [bruteForceSorted, List.mem_insertionSort, List.mem_permutations']
  have hnodL : (distinct_permutations l).Nodup := by
    rw [distinct_permutations_eq]
    exact search_nodup _ _
  have hnodR : (bruteForceSorted l).Nodup := by
    have h1 : l.permutations.Nodup := List.nodup_permutations l hnd
    have h2 : l.permutations'.Nodup :=
      ((List.permutations_perm_permutations' l).nodup_iff).mp h1
    exact ((List.perm_insertionSort _ _).nodup_iff).mpr h2
  have hperm : (distinct_permutations l).Perm (bruteForceSorted l) := by
    refine (List.perm_ext_iff_of_nodup hnodL hnodR).mpr fun p => ?_
    rw [hmemR, mem_distinct_permutations]
    constructor
    · exact fun h => h.2
    · intro hp
      refine ⟨fun h0 => hne ?_, hp⟩
      subst h0
      exact hp.symm.eq_nil
  refine List.eq_of_perm_of_sorted hperm ?_ (List.sorted_insertionSort _ _)
  rw [distinct_permutations_eq]
  exact (pairwise_search _ _).imp fun {a b} h => le_of_lt h

/-! Section: Claim theorems -/

/-- C1 (amended): for every input, a sequence is in the output of
`distinct_permutations` iff it is a nonempty rearrangement of the input
multiset, and no two output entries are equal as sequences.  (The amendment —
requiring the member to be nonempty — is forced by the empty input, where the
empty sequence is a rearrangement of the empty input multiset but the output
is empty by design; see the counterexample.) -/
theorem dp_mem_iff_and_nodup (input : List T) :
    (∀ p : List T, p ∈ distinct_permutations input ↔ p ≠ [] ∧ p.Perm input) ∧
      (distinct_permutations input).Nodup :=
  ⟨fun p => mem_distinct_permutations input p, by
    rw [distinct_permutations_eq]
    exact search_nodup _ _⟩

/-- C1, counterexample to the claim as stated: for the empty input, the empty
sequence is a rearrangement of the input multiset yet is not in the output. -/
theorem dp_mem_iff_counterexample_nil :
    ¬ (([] : List ℕ) ∈ distinct_permutations ([] : List ℕ) ↔
      ([] : List ℕ).Perm ([] : List ℕ)) := by
  decide

/-- C2: for every input, the output of `distinct_permutations` is strictly
increasing under lexicographic comparison using the order on `T`. -/
theorem dp_pairwise_lex (input : List T) :
    (distinct_permutations input).Pairwise (List.Lex (· < ·)) := by
  rw [distinct_permutations_eq]
  exact pairwise_search _ _

/-- C3 (amended): for every nonempty input with element frequencies
`c₁, …, cₖ` summing to `n`, the output length of `distinct_permutations` is
the multinomial `n! / (c₁! ⋯ cₖ!)`.  (The restriction to nonempty inputs is
forced: for the empty input the formula gives `0! / 1 = 1` but the output is
empty; see the counterexample.) -/
theorem dp_length_multinomial (input : List T) (hne : input ≠ []) :
    (distinct_permutations input).length =
      (input.length).factorial /
        ∏ k ∈ input.toFinset, (input.count k).factorial := by
  have hn : (Counts.ofList input).counts ≠ 0 := by
    simp [Counts.ofList, hne]
  have hP : (∏ k ∈ input.toFinset, (input.count k).factorial) =
      ∏ k ∈ (Counts.ofList input).counts.toFinset,
        ((Counts.ofList input).counts.count k).factorial := by
    refine Finset.prod_congr rfl ?_
    intro k _
    simp [Counts.ofList, Multiset.coe_count]
  have hpos : 0 < ∏ k ∈ (Counts.ofList input).counts.toFinset,
      ((Counts.ofList input).counts.count k).factorial :=
    Finset.prod_pos fun i _ => Nat.factorial_pos _
  have hmul := length_search (Counts.ofList input) [] hn
  rw [distinct_permutations_eq, hP]
  refine (Nat.div_eq_of_eq_mul_left hpos ?_).symm
  rw [hmul]
  simp [Counts.ofList]

/-- C3, counterexample to the claim as stated: for the empty input the
multinomial formula gives `0! / 1 = 1`, but the output length is `0`. -/
theorem dp_length_counterexample_nil :
    (distinct_permutations ([] : List ℕ)).length ≠
      (([] : List ℕ).length).factorial /
        ∏ k ∈ ([] : List ℕ).toFinset, (([] : List ℕ).count k).factorial := by
  decide

/-- C3, witness. -/
theorem dp_length_multinomial_witness :
    ([0, 0, 1] : List ℕ) ≠ [] ∧
    (distinct_permutations ([0, 0, 1] : List ℕ)).length =
      (([0, 0, 1] : List ℕ).length).factorial /
        ∏ k ∈ ([0, 0, 1] : List ℕ).toFinset,
          (([0, 0, 1] : List ℕ).count k).factorial :=
  ⟨by decide, dp_length_multinomial [0, 0, 1] (by decide)⟩

/-- C4: every permutation in the output of `distinct_permutations` carries the
same multiset of values as the input, hence the same length. -/
theorem dp_multiset_conservation (input p : List T)
    (hp : p ∈ distinct_permutations input) :
    (p : Multiset T) = (input : Multiset T) ∧ p.length = input.length := by
  have h := (mem_distinct_permutations input p).mp hp
  exact ⟨Multiset.coe_eq_coe.mpr h.2, h.2.length_eq⟩

/-- C4, witness. -/
theorem dp_multiset_conservation_witness :
    ([0, 1, 0] : List ℕ) ∈ distinct_permutations ([0, 0, 1] : List ℕ) ∧
    ((([0, 1, 0] : List ℕ) : Multiset ℕ) = (([0, 0, 1] : List ℕ) : Multiset ℕ) ∧
      ([0, 1, 0] : List ℕ).length = ([0, 0, 1] : List ℕ).length) :=
  ⟨by decide, dp_multiset_conservation [0, 0, 1] [0, 1, 0] (by decide)⟩

/-- C5: the empty input yields the empty output sequence, not a sequence
containing one empty permutation. -/
theorem dp_nil : distinct_permutations ([] : List T) = [] ∧
    distinct_permutations ([] : List T) ≠ [[]] := by
  have h0 : distinct_permutations ([] : List T) = [] := rfl
  refine ⟨h0, ?_⟩
  rw [h0]
  simp

/-- C6: permuting the input does not change the output of
`distinct_permutations` — only element frequencies matter. -/
theorem dp_perm_input (l₁ l₂ : List T) (h : l₁.Perm l₂) :
    distinct_permutations l₁ = distinct_permutations l₂ := by
  have hc : Counts.ofList l₁ = Counts.ofList l₂ :=
    Counts.ext (Multiset.coe_eq_coe.mpr h)
  rw [distinct_permutations_eq, distinct_permutations_eq, hc]

/-- C6, witness. -/
theorem dp_perm_input_witness :
    ([0, 1, 0, 1] : List ℕ).Perm ([0, 0, 1, 1] : List ℕ) ∧
    distinct_permutations ([0, 1, 0, 1] : List ℕ) =
      distinct_permutations ([0, 0, 1, 1] : List ℕ) :=
  ⟨by decide, dp_perm_input [0, 1, 0, 1] [0, 0, 1, 1] (by decide)⟩

/-- C7, witness. -/
theorem dp_eq_bruteForceSorted_witness :
    (([0, 1, 2] : List ℕ).Nodup ∧ ([0, 1, 2] : List ℕ) ≠ []) ∧
    distinct_permutations ([0, 1, 2] : List ℕ) = bruteForceSorted [0, 1, 2] :=
  ⟨⟨by decide, by decide⟩,
    distinct_permutations_eq_bruteForceSorted [0, 1, 2] (by decide) (by decide)⟩

/-- C7, counterexample to the claim as stated: for the empty input (whose
elements are vacuously pairwise distinct) the brute-force generator produces
the single empty permutation, but `distinct_permutations` returns `[]`. -/
theorem dp_bruteForceSorted_counterexample_nil :
    distinct_permutations ([] : List ℕ) ≠ bruteForceSorted ([] : List ℕ) := by
  decide

/-- C8: `Counts::from` aborts (returns `none`, modelling the `assert!` panic)
iff some count in the given mapping is not strictly positive; when every count
is strictly positive it succeeds, and the constructed counter holds exactly
the given mapping: each listed key has its listed count, and every other value
has count zero. -/
theorem Counts_fromMap_spec (m : List (T × Nat))
    (hnd : (m.map Prod.fst).Nodup) :
    (Counts.fromMap m = none ↔ ∃ p ∈ m, ¬ 0 < p.2) ∧
    ∀ cnt : Counts T, Counts.fromMap m = some cnt →
      (∀ p ∈ m, cnt.counts.count p.1 = p.2) ∧
      ∀ k, k ∉ m.map Prod.fst → cnt.counts.count k = 0 := by
  constructor
  · rw [Counts.fromMap]
    by_cases hall : m.all (fun p => 0 < p.2) = true
    · rw [if_pos hall]
      constructor
      · intro h
        cases h
      · rintro ⟨p, hp, hp2⟩
        rw [List.all_eq_true] at hall
        exact absurd (by simpa using hall p hp) hp2
    · rw [if_neg hall]
      constructor
      · intro _
        rw [List.all_eq_true] at hall
        push_neg at hall
        obtain ⟨p, hp, hp2⟩ := hall
        exact ⟨p, hp, by simpa using hp2⟩
      · intro _
        rfl
  · intro cnt hcnt
    rw [Counts.fromMap] at hcnt
    by_cases hall : m.all (fun p => 0 < p.2) = true
    · rw [if_pos hall] at hcnt
      injection hcnt with hcnt
      subst hcnt
      exact ⟨fun p hp => mapMultiset_count_of_mem hnd hp,
        fun k hk => mapMultiset_count_of_not_mem hk⟩
    · rw [if_neg hall] at hcnt
      cases hcnt

/-- C8, witness. -/
theorem Counts_fromMap_spec_witness :
    (([((0 : ℕ), 2), (1, 1)].map Prod.fst).Nodup) ∧
    ((Counts.fromMap [((0 : ℕ), 2), (1, 1)] = none ↔
        ∃ p ∈ [((0 : ℕ), 2), (1, 1)], ¬ 0 < p.2) ∧
      ∀ cnt : Counts ℕ, Counts.fromMap [((0 : ℕ), 2), (1, 1)] = some cnt →
        (∀ p ∈ [((0 : ℕ), 2), (1, 1)], cnt.counts.count p.1 = p.2) ∧
        ∀ k, k ∉ [((0 : ℕ), 2), (1, 1)].map Prod.fst →
          cnt.counts.count k = 0) :=
  ⟨by decide, Counts_fromMap_spec [((0 : ℕ), 2), (1, 1)] (by decide)⟩

/-- C9: when a call to the recursive search returns, the prefix and the
counter are exactly in the state they had on entry (every push onto the prefix
is undone by a pop and every remove from the counter is undone by an add
before the frame returns): the final state components of the state-threading
embedding equal the initial ones. -/
theorem dpw_restores_state (fuel : Nat) (head : List T) (c : Counts T)
    (hfuel : Multiset.card c.counts ≤ fuel) :
    (distinct_permutations_with fuel head c).2.1 = head ∧
    (distinct_permutations_with fuel head c).2.2 = c := by
  rw [distinct_permutations_with_eq fuel head c hfuel]
  exact ⟨rfl, rfl⟩

/-- C9, witness. -/
theorem dpw_restores_state_witness :
    Multiset.card (Counts.ofList ([0, 0, 1] : List ℕ)).counts ≤ 3 ∧
    ((distinct_permutations_with 3 [5] (Counts.ofList ([0, 0, 1] : List ℕ))).2.1 = [5] ∧
      (distinct_permutations_with 3 [5] (Counts.ofList ([0, 0, 1] : List ℕ))).2.2 =
        Counts.ofList ([0, 0, 1] : List ℕ)) :=
  ⟨by decide, dpw_restores_state 3 [5] (Counts.ofList [0, 0, 1]) (by decide)⟩

/-- C10: `distinct_permutations` is deterministic in spite of the unspecified
iteration order of the hash map's keys: running the search with any two
key-enumeration oracles that produce the distinct keys (in any order) yields
identical outputs, equal to the output of `distinct_permutations` —
because the keys are sorted before being tried at every recursion level. -/
theorem dp_deterministic (k₁ k₂ : Counts T → List T)
    (h₁ : ∀ c : Counts T, (k₁ c).Perm c.keys)
    (h₂ : ∀ c : Counts T, (k₂ c).Perm c.keys) (input : List T) :
    distinct_permutationsOrd k₁ input = distinct_permutationsOrd k₂ input ∧
    distinct_permutationsOrd k₁ input = distinct_permutations input := by
  have hcard : Multiset.card (Counts.ofList input).counts ≤ input.length := by
    simp [Counts.ofList]
  refine ⟨?_, ?_⟩ <;> simp only [distinct_permutationsOrd]
  · rw [searchOrd_eq k₁ h₁ _ _ _ hcard, searchOrd_eq k₂ h₂ _ _ _ hcard]
  · rw [searchOrd_eq k₁ h₁ _ _ _ hcard, distinct_permutations_eq]

/-- C10, witness: reversed key enumeration gives the same output as the sorted
one. -/
theorem dp_deterministic_witness :
    ((∀ c : Counts ℕ, (Counts.keys c).reverse.Perm c.keys) ∧
      (∀ c : Counts ℕ, (Counts.keys c).Perm c.keys)) ∧
    (distinct_permutationsOrd (fun c : Counts ℕ => (Counts.keys c).reverse) [0, 1, 0] =
        distinct_permutationsOrd (fun c : Counts ℕ => Counts.keys c) [0, 1, 0] ∧
      distinct_permutationsOrd (fun c : Counts ℕ => (Counts.keys c).reverse) [0, 1, 0] =
        distinct_permutations [0, 1, 0]) :=
  ⟨⟨fun c => List.reverse_perm _, fun c => List.Perm.refl _⟩,
    dp_deterministic _ _ (fun c => List.reverse_perm _)
      (fun c => List.Perm.refl _) [0, 1, 0]⟩

end DistinctPerms
